import Mathlib

/-!
Shallow embedding of the in-memory vector-retrieval core (`VectorStore` and its
chunking / cosine-similarity / batching helpers) of this repository, together
with theorems settling the specification claims about it.

Modelling conventions:

* JS strings are modelled as `List Char`; `text.slice(i, e)` becomes
  `(text.drop i).take (e - i)`.
* JS numbers carried by embeddings are modelled as `ℚ`; `Math.sqrt` is
  modelled by `Real.sqrt`, so cosine similarity lives in `ℝ`.
* `async` embedding functions that may reject are modelled as
  `List Char → Except ε (List ℚ)`; the operations additionally return the
  ordered trace of texts on which the embedding function was invoked, and
  `create` returns the ordered trace of progress events, so that claims about
  call counts and progress reporting are statable.
* The JS `while` loop of `chunkText` is written with explicit fuel
  (`text.length` iterations always suffice when `overlap < chunkSize`,
  which is the only regime the claims quantify over).
* `Array.prototype.sort` with comparator `(a, b) => b.similarity - a.similarity`
  is required by the language specification to be a stable sort ordering by
  descending similarity; it is modelled by `List.mergeSort`, which is stable.
-/

/-- JS strings as character lists. -/
abbrev Str := List Char

/-- `text.slice(i, e)` for `0 ≤ i ≤ e` (the only way the code calls it). -/
def jsSlice (text : Str) (i e : Nat) : Str := (text.drop i).take (e - i)

/-- `Math.round`: round half toward positive infinity. -/
def jsRound (q : ℚ) : ℤ := ⌊q + 1/2⌋

namespace VectorStore

/-- `interface VectorStoreEntry { chunk: string; embedding: number[] }`. -/
structure VectorStoreEntry where
  chunk : Str
  embedding : List ℚ
deriving DecidableEq

/-- `type EmbeddingFunction = (text: string) => Promise<number[]>`, a promise
that either resolves to a vector or rejects with an error of type `ε`. -/
abbrev EmbeddingFunction (ε : Type) := Str → Except ε (List ℚ)

/-- One iteration of the `while (i < text.length)` loop of `chunkText`,
with explicit fuel (one unit per loop iteration). -/
def chunkTextGo (text : Str) (chunkSize overlap : Nat) : Nat → Nat → List Str
  | 0, _ => []
  | fuel + 1, i =>
    if i < text.length then
      let e := min (i + chunkSize) text.length
      let c := jsSlice text i e
      if e = text.length then [c]
      else c :: chunkTextGo text chunkSize overlap fuel (i + (chunkSize - overlap))
    else []

/-- `chunkText(text, chunkSize, overlap)`.  The source declares defaults
`chunkSize = 1000`, `overlap = 200`; `create` (its only caller) uses exactly
those defaults, applied explicitly at the call site below.  `text.length`
units of fuel always suffice: each iteration advances `i` by
`chunkSize - overlap ≥ 1` when `overlap < chunkSize`. -/
def chunkText (text : Str) (chunkSize overlap : Nat) : List Str :=
  chunkTextGo text chunkSize overlap text.length 0

/-- Reference chunk count from the spec:
`max(1, ceil((L - overlap) / (chunkSize - overlap)))` (written with natural
subtraction, which also yields `1` when `L ≤ overlap`). -/
def numChunks (L chunkSize overlap : Nat) : Nat :=
  max 1 ((L - overlap + (chunkSize - overlap) - 1) / (chunkSize - overlap))

/-- Modelled from the spec: reference window at a given start offset —
it spans `min(chunkSize, remaining length)` characters. -/
def refWindowAt (text : Str) (chunkSize p : Nat) : Str :=
  jsSlice text p (min (p + chunkSize) text.length)

/-- Modelled from the spec: window `k` starts at offset
`k * (chunkSize - overlap)`. -/
def refWindow (text : Str) (chunkSize overlap k : Nat) : Str :=
  refWindowAt text chunkSize (k * (chunkSize - overlap))

/-- Modelled from the spec: the reference window sequence — windows
`0, 1, …` up to adjusted count; empty text yields no windows. -/
def refChunks (text : Str) (chunkSize overlap : Nat) : List Str :=
  if text.length = 0 then []
  else (List.range (numChunks text.length chunkSize overlap)).map
    (refWindow text chunkSize overlap)

/-- `cosineSimilarity(vecA, vecB)`: one loop over the indices of `vecA`
accumulates the dot product and both squared norms (`vecB` is only read at
indices below `vecA.length`; in the regimes the claims quantify over those
reads are in bounds, and `getD _ 0` is the out-of-bounds placeholder).  If
either squared norm is `0` the result is `0`, otherwise
`dot / (sqrt normA * sqrt normB)`. -/
noncomputable def cosineSimilarity (vecA vecB : List ℚ) : ℝ :=
  let dotProduct : ℚ := ∑ i ∈ Finset.range vecA.length, vecA.getD i 0 * vecB.getD i 0
  let normA : ℚ := ∑ i ∈ Finset.range vecA.length, vecA.getD i 0 * vecA.getD i 0
  let normB : ℚ := ∑ i ∈ Finset.range vecA.length, vecB.getD i 0 * vecB.getD i 0
  if normA = 0 ∨ normB = 0 then 0
  else (dotProduct : ℝ) / (Real.sqrt (normA : ℝ) * Real.sqrt (normB : ℝ))

/-- `Promise.all(batchChunks.map(chunk => embeddingFn(chunk)))`: the whole
batch resolves to the list of embeddings in chunk order, or rejects if any
call rejects (no entry of a failed batch is kept). -/
def batchAll {ε : Type} (f : EmbeddingFunction ε) : List Str → Except ε (List (List ℚ))
  | [] => .ok []
  | c :: cs =>
    match f c with
    | .error e => .error e
    | .ok v =>
      match batchAll f cs with
      | .error e => .error e
      | .ok vs => .ok (v :: vs)

/-- Observable outcome of a `create` call: the final contents of
`this.store`, the rejection (if any), and the ordered list of
`(processedCount, percentage)` progress events passed to `onProgress`. -/
structure CreateResult (ε : Type) where
  store : List VectorStoreEntry
  error : Option ε
  progress : List (Nat × ℤ)
deriving DecidableEq

/-- The `for (let i = 0; i < chunks.length; i += batchSize)` loop of
`create`, with `batchSize = 5`: `chunks` is the remaining suffix and `i` the
index of its first element in the full chunk list of length `total`.  Each
iteration awaits the batch (`chunks.slice(i, i + 5)`), appends its entries in
order, and reports progress
`(processedCount, round(processedCount / total * 100))`; a rejected batch
aborts the loop, keeping the entries appended by earlier iterations.
The first argument is fuel making the recursion structural; one unit per
iteration, so fuel equal to the number of remaining chunks always suffices
(each iteration consumes five chunks). -/
def createGo {ε : Type} (f : EmbeddingFunction ε) (total : Nat) :
    Nat → List Str → Nat → CreateResult ε
  | _, [], _ => ⟨[], none, []⟩
  | 0, _ :: _, _ => ⟨[], none, []⟩
  | fuel + 1, c :: cs, i =>
    match batchAll f ((c :: cs).take 5) with
    | .error e => ⟨[], some e, []⟩
    | .ok batchEmbeddings =>
      let entries := (((c :: cs).take 5).zip batchEmbeddings).map
        (fun p => VectorStoreEntry.mk p.1 p.2)
      let processedCount := min (i + 5) total
      let percentage := jsRound ((processedCount : ℚ) / (total : ℚ) * 100)
      let rest := createGo f total fuel ((c :: cs).drop 5) (i + 5)
      ⟨entries ++ rest.store, rest.error, (processedCount, percentage) :: rest.progress⟩

/-- `create(text, embeddingFn, onProgress)`.  `prior` is the store contents
before the call; the first statement `this.store = []` discards them, so the
result never depends on `prior`.  Chunking uses the declared defaults
`chunkSize = 1000`, `overlap = 200`. -/
def create {ε : Type} (prior : List VectorStoreEntry) (text : Str)
    (f : EmbeddingFunction ε) : CreateResult ε :=
  let chunks := chunkText text 1000 200
  createGo f chunks.length chunks.length chunks 0

/-- The descending-similarity comparator: JS
`(a, b) => b.similarity - a.similarity` orders `a` before `b` exactly when
`b.similarity ≤ a.similarity`, and `Array.prototype.sort` is stable. -/
noncomputable def simLE (a b : Str × ℝ) : Bool := decide (b.2 ≤ a.2)

/-- `search(query, embeddingFn, topK)` on a store: returns the outcome
(the ranked top-`topK` chunk texts, or the rejection of the query-embedding
call) together with the ordered trace of texts passed to `embeddingFn`.
The source declares the default `topK = 3`; callers of the model pass it
explicitly. -/
noncomputable def search {ε : Type} (store : List VectorStoreEntry) (query : Str)
    (f : EmbeddingFunction ε) (topK : Nat) : Except ε (List Str) × List Str :=
  if store.length = 0 then (.ok [], [])
  else
    match f query with
    | .error e => (.error e, [query])
    | .ok queryEmbedding =>
      let similarities := store.map
        (fun entry => (entry.chunk, cosineSimilarity queryEmbedding entry.embedding))
      let ranked := similarities.mergeSort simLE
      (.ok ((ranked.take topK).map Prod.fst), [query])

/-! ### Chunking: `chunkText` equals the spec's window sequence -/

theorem jsSlice_length (text : Str) (i e : Nat) :
    (jsSlice text i e).length = min (e - i) (text.length - i) := by
  simp [jsSlice]

theorem numChunks_eq_one {L cs ov : Nat} (hov : ov < cs) (hL : L ≤ cs) :
    numChunks L cs ov = 1 := by
  have hs : 0 < cs - ov := by omega
  have hlt : (L - ov + (cs - ov) - 1) / (cs - ov) < 2 := by
    rw [Nat.div_lt_iff_lt_mul hs]; omega
  unfold numChunks; omega

theorem numChunks_succ {L cs ov : Nat} (hov : ov < cs) (hL : cs < L) :
    numChunks L cs ov = numChunks (L - (cs - ov)) cs ov + 1 := by
  have hs : 0 < cs - ov := by omega
  have h₁ : L - ov + (cs - ov) - 1 = (L - ov - 1) + (cs - ov) := by omega
  have h₂ : L - (cs - ov) - ov + (cs - ov) - 1 = L - ov - 1 := by omega
  have h₃ : 1 ≤ (L - ov - 1) / (cs - ov) := by
    rw [Nat.one_le_div_iff hs]; omega
  unfold numChunks
  rw [h₁, h₂, Nat.add_div_right _ hs]
  omega

theorem chunkTextGo_eq (text : Str) (cs ov : Nat) (hov : ov < cs) :
    ∀ fuel i, i < text.length → text.length ≤ i + fuel →
      chunkTextGo text cs ov fuel i =
        (List.range (numChunks (text.length - i) cs ov)).map
          (fun j => refWindowAt text cs (i + j * (cs - ov))) := by
  intro fuel
  induction fuel with
  | zero => intro i hi hle; omega
  | succ fuel ih =>
    intro i hi hle
    rw [chunkTextGo, if_pos hi]
    by_cases hend : min (i + cs) text.length = text.length
    · rw [if_pos hend]
      have h1 : numChunks (text.length - i) cs ov = 1 :=
        numChunks_eq_one hov (by omega)
      rw [h1]
      simp [refWindowAt, List.range_succ]
    · rw [if_neg hend]
      have hcs : i + cs < text.length := by omega
      have hi' : i + (cs - ov) < text.length := by omega
      rw [ih (i + (cs - ov)) hi' (by omega)]
      have hn : numChunks (text.length - i) cs ov =
          numChunks (text.length - (i + (cs - ov))) cs ov + 1 := by
        have := @numChunks_succ (text.length - i) cs ov hov (by omega)
        have he : text.length - i - (cs - ov) = text.length - (i + (cs - ov)) := by
          omega
        rw [he] at this
        exact this
      rw [hn, List.range_succ_eq_map, List.map_cons, List.map_map]
      congr 1
      · simp [refWindowAt]
      · apply List.map_congr_left
        intro j _
        have : i + (j + 1) * (cs - ov) = i + (cs - ov) + j * (cs - ov) := by ring
        simp [Function.comp, Nat.succ_eq_add_one, this]

theorem chunkText_eq_refChunks (text : Str) (cs ov : Nat) (hov : ov < cs) :
    chunkText text cs ov = refChunks text cs ov := by
  unfold chunkText refChunks
  by_cases hL : text.length = 0
  · rw [if_pos hL, hL]
    cases text with
    | nil => rfl
    | cons c t => simp at hL
  · rw [if_neg hL]
    rw [chunkTextGo_eq text cs ov hov text.length 0 (by omega) (by omega)]
    simp [refWindow]

/-- Claim C2: for every text and every `chunkSize > overlap ≥ 0`,
`chunkText` equals the spec's reference window sequence (window `k` spans
`min(chunkSize, remaining)` characters from offset `k * (chunkSize - overlap)`,
stopping at the first window reaching the end, never emitting an empty
trailing window); hence for non-empty text the chunk count is
`max(1, ceil((L - overlap) / (chunkSize - overlap)))` (the Nat-encoded
ceiling `numChunks`), and text no longer than `chunkSize` yields exactly one
chunk equal to the whole text. -/
theorem claimC2_chunkText_window_spec (text : Str) (chunkSize overlap : Nat)
    (hov : overlap < chunkSize) :
    chunkText text chunkSize overlap = refChunks text chunkSize overlap ∧
    (text ≠ [] →
      (chunkText text chunkSize overlap).length =
        numChunks text.length chunkSize overlap) ∧
    (text ≠ [] → text.length ≤ chunkSize →
      chunkText text chunkSize overlap = [text]) := by
  have hmain := chunkText_eq_refChunks text chunkSize overlap hov
  refine ⟨hmain, ?_, ?_⟩
  · intro hne
    have hL : text.length ≠ 0 := by simpa using hne
    rw [hmain, refChunks, if_neg hL, List.length_map, List.length_range]
  · intro hne hsmall
    have hL : text.length ≠ 0 := by simpa using hne
    rw [hmain, refChunks, if_neg hL, numChunks_eq_one hov hsmall]
    have hwin : refWindow text chunkSize overlap 0 = text := by
      unfold refWindow refWindowAt jsSlice
      have hmin : min (0 * (chunkSize - overlap) + chunkSize) text.length =
          text.length := by omega
      rw [hmin]
      simp
    have hr : List.range 1 = [0] := rfl
    rw [hr, List.map_cons, List.map_nil, hwin]

/-! ### The `create` batch loop -/

theorem batchAll_ok_length {ε : Type} (f : EmbeddingFunction ε) :
    ∀ {l : List Str} {es : List (List ℚ)}, batchAll f l = .ok es →
      es.length = l.length := by
  intro l
  induction l with
  | nil => intro es h; simp [batchAll] at h; simp [← h]
  | cons c cs ih =>
    intro es h
    rw [batchAll] at h
    cases hc : f c with
    | error e => rw [hc] at h; exact absurd h (by simp)
    | ok v =>
      rw [hc] at h
      cases hcs : batchAll f cs with
      | error e => rw [hcs] at h; exact absurd h (by simp)
      | ok vs =>
        rw [hcs] at h
        simp at h
        simp [← h, ih hcs]

/-- Unfolding of one loop iteration whose batch rejected. -/
theorem createGo_cons_error {ε : Type} {f : EmbeddingFunction ε} {total fuel : Nat}
    {c : Str} {cs : List Str} {i : Nat} {e : ε}
    (hb : batchAll f ((c :: cs).take 5) = .error e) :
    createGo f total (fuel + 1) (c :: cs) i = ⟨[], some e, []⟩ := by
  unfold createGo
  rw [hb]

/-- Unfolding of one loop iteration whose batch resolved. -/
theorem createGo_cons_ok {ε : Type} {f : EmbeddingFunction ε} {total fuel : Nat}
    {c : Str} {cs : List Str} {i : Nat} {embs : List (List ℚ)}
    (hb : batchAll f ((c :: cs).take 5) = .ok embs) :
    createGo f total (fuel + 1) (c :: cs) i =
      ⟨(((c :: cs).take 5).zip embs).map (fun p => VectorStoreEntry.mk p.1 p.2) ++
          (createGo f total fuel ((c :: cs).drop 5) (i + 5)).store,
        (createGo f total fuel ((c :: cs).drop 5) (i + 5)).error,
        (min (i + 5) total,
            jsRound (((min (i + 5) total : Nat) : ℚ) / (total : ℚ) * 100)) ::
          (createGo f total fuel ((c :: cs).drop 5) (i + 5)).progress⟩ := by
  conv_lhs => unfold createGo
  rw [hb]

/-- If the whole loop reported no error, the store holds exactly the chunks,
in order. -/
theorem createGo_ok_store {ε : Type} (f : EmbeddingFunction ε) (total : Nat) :
    ∀ fuel (chunks : List Str) i, chunks.length ≤ fuel →
      (createGo f total fuel chunks i).error = none →
      (createGo f total fuel chunks i).store.map (fun en => en.chunk) = chunks := by
  intro fuel
  induction fuel with
  | zero =>
    intro chunks i hlen _
    match chunks with
    | [] => rfl
  | succ fuel ih =>
    intro chunks i hlen herr
    match chunks with
    | [] => rfl
    | c :: cs =>
      cases hb : batchAll f ((c :: cs).take 5) with
      | error e => rw [createGo_cons_error hb] at herr; simp at herr
      | ok embs =>
        rw [createGo_cons_ok hb] at herr ⊢
        dsimp only at herr ⊢
        have hrest : ((c :: cs).drop 5).length ≤ fuel := by
          simp at hlen ⊢; omega
        have hlen5 : ((c :: cs).take 5).length ≤ embs.length := by
          rw [batchAll_ok_length f hb]
        rw [List.map_append, List.map_map]
        have hfst : ((fun en : VectorStoreEntry => en.chunk) ∘
            (fun p : Str × List ℚ => VectorStoreEntry.mk p.1 p.2)) = Prod.fst := rfl
        rw [hfst, List.map_fst_zip _ _ hlen5, ih _ _ hrest herr,
          List.take_append_drop]

/-- If the whole loop reported no error, the progress trace is one event per
batch: after batch `k` (0-indexed) the processed count is
`min(i + 5k + 5, total)` and the percentage is its rounded share of `total`. -/
theorem createGo_ok_progress {ε : Type} (f : EmbeddingFunction ε) (total : Nat) :
    ∀ fuel (chunks : List Str) i, chunks.length ≤ fuel →
      (createGo f total fuel chunks i).error = none →
      (createGo f total fuel chunks i).progress =
        (List.range ((chunks.length + 4) / 5)).map (fun k =>
          (min (i + 5 * k + 5) total,
            jsRound (((min (i + 5 * k + 5) total : Nat) : ℚ) / (total : ℚ) * 100))) := by
  intro fuel
  induction fuel with
  | zero =>
    intro chunks i hlen _
    match chunks with
    | [] => rfl
  | succ fuel ih =>
    intro chunks i hlen herr
    match chunks with
    | [] => rfl
    | c :: cs =>
      cases hb : batchAll f ((c :: cs).take 5) with
      | error e => rw [createGo_cons_error hb] at herr; simp at herr
      | ok embs =>
        rw [createGo_cons_ok hb] at herr ⊢
        dsimp only at herr ⊢
        have hrest : ((c :: cs).drop 5).length ≤ fuel := by
          simp at hlen ⊢; omega
        rw [ih _ _ hrest herr]
        have hcount : ((c :: cs).length + 4) / 5 = (((c :: cs).drop 5).length + 4) / 5 + 1 := by
          simp
          omega
        rw [hcount, List.range_succ_eq_map, List.map_cons, List.map_map]
        congr 1
        apply List.map_congr_left
        intro k hk
        have harg : i + 5 + 5 * k + 5 = i + 5 * (k + 1) + 5 := by ring
        simp only [Function.comp_apply, Nat.succ_eq_add_one]
        rw [harg]

/-- If the loop rejected, the final store holds exactly the chunks of the
batches that fully succeeded before the failing batch — a prefix of the chunk
list whose length is a multiple of 5 — and the next batch is the one that
rejected. -/
theorem createGo_error_store {ε : Type} (f : EmbeddingFunction ε) (total : Nat) :
    ∀ fuel (chunks : List Str) i (e : ε), chunks.length ≤ fuel →
      (createGo f total fuel chunks i).error = some e →
      ∃ b, (createGo f total fuel chunks i).store.map (fun en => en.chunk) =
          chunks.take (5 * b) ∧
        batchAll f ((chunks.drop (5 * b)).take 5) = .error e := by
  intro fuel
  induction fuel with
  | zero =>
    intro chunks i e hlen herr
    match chunks with
    | [] => exact absurd herr (by simp [createGo])
  | succ fuel ih =>
    intro chunks i e hlen herr
    match chunks with
    | [] => exact absurd herr (by simp [createGo])
    | c :: cs =>
      cases hb : batchAll f ((c :: cs).take 5) with
      | error e0 =>
        rw [createGo_cons_error hb] at herr ⊢
        simp at herr
        refine ⟨0, by simp, ?_⟩
        rw [herr] at hb
        simpa using hb
      | ok embs =>
        rw [createGo_cons_ok hb] at herr ⊢
        dsimp only at herr ⊢
        have hrest : ((c :: cs).drop 5).length ≤ fuel := by
          simp at hlen ⊢; omega
        obtain ⟨b, hstore, hfail⟩ := ih _ _ _ hrest herr
        refine ⟨b + 1, ?_, ?_⟩
        · have hlen5 : ((c :: cs).take 5).length ≤ embs.length := by
            rw [batchAll_ok_length f hb]
          have hfst : ((fun en : VectorStoreEntry => en.chunk) ∘
              (fun p : Str × List ℚ => VectorStoreEntry.mk p.1 p.2)) = Prod.fst := rfl
          rw [List.map_append, List.map_map, hfst, List.map_fst_zip _ _ hlen5, hstore]
          have h5 : 5 * (b + 1) = 5 + 5 * b := by ring
          rw [h5, List.take_add]
        · rw [List.drop_drop] at hfail
          have h5 : 5 * (b + 1) = 5 + 5 * b := by ring
          rw [h5]
          exact hfail

/-- Claim C6: after a successful `create`, the store has one entry per chunk
of the chunker's output on the text (with the fixed defaults 1000/200),
`store[i].chunk` is the `i`-th chunk for every index (batch order and
within-batch order preserve chunk order), and the result is independent of
the store's prior contents (they are replaced, not accumulated). -/
theorem claimC6_create_store_order {ε : Type} (prior : List VectorStoreEntry)
    (text : Str) (f : EmbeddingFunction ε)
    (hok : (create prior text f).error = none) :
    (create prior text f).store.map (fun en => en.chunk) = chunkText text 1000 200 ∧
    (create prior text f).store.length = (chunkText text 1000 200).length ∧
    (∀ i (h : i < (create prior text f).store.length),
      ((create prior text f).store.get ⟨i, h⟩).chunk =
        (chunkText text 1000 200).getD i []) ∧
    create prior text f = create [] text f := by
  have hmap : (create prior text f).store.map (fun en => en.chunk) =
      chunkText text 1000 200 :=
    createGo_ok_store f (chunkText text 1000 200).length
      (chunkText text 1000 200).length (chunkText text 1000 200) 0 le_rfl hok
  have hlen : (create prior text f).store.length = (chunkText text 1000 200).length := by
    rw [← hmap, List.length_map]
  refine ⟨hmap, hlen, ?_, rfl⟩
  intro i h
  have hi : i < (chunkText text 1000 200).length := hlen ▸ h
  calc ((create prior text f).store.get ⟨i, h⟩).chunk
      = ((create prior text f).store.map (fun en => en.chunk)).get
          ⟨i, by rw [List.length_map]; exact h⟩ := by
        rw [List.get_map]
    _ = (chunkText text 1000 200).get ⟨i, hi⟩ := by
        apply List.get_of_eq hmap
    _ = (chunkText text 1000 200).getD i [] := by
        rw [List.getD_eq_getElem _ _ hi, List.get_eq_getElem]

/-- A total embedding stub: every text resolves to the vector `[1]`. -/
def constEmb : EmbeddingFunction Unit := fun _ => Except.ok [1]

/-- An eight-character document used by concrete witnesses. -/
def text8 : Str := ['a', 'b', 'c', 'd', 'e', 'f', 'g', 'h']

/-- Witness for C6: a successful `create` over one chunk. -/
theorem claimC6_create_store_order_witness :
    (create [] text8 constEmb).error = none ∧
    ((create [] text8 constEmb).store.map (fun en => en.chunk) =
        chunkText text8 1000 200 ∧
      (create [] text8 constEmb).store.length = (chunkText text8 1000 200).length ∧
      (∀ i (h : i < (create [] text8 constEmb).store.length),
        ((create [] text8 constEmb).store.get ⟨i, h⟩).chunk =
          (chunkText text8 1000 200).getD i []) ∧
      create ([] : List VectorStoreEntry) text8 constEmb = create [] text8 constEmb) :=
  ⟨by decide, claimC6_create_store_order [] text8 constEmb (by decide)⟩

theorem jsRound_mono {q r : ℚ} (h : q ≤ r) : jsRound q ≤ jsRound r :=
  Int.floor_le_floor (by linarith)

theorem jsRound_hundred : jsRound 100 = 100 := by
  unfold jsRound
  rw [Int.floor_eq_iff]
  constructor <;> norm_num

/-- Claim C7: during a successful `create` over `N ≥ 1` chunks,
`onProgress` fires `ceil(N/5)` times (Nat-encoded as `(N+4)/5`), the `k`-th
event carries processed count `min(5(k+1), N)` and percentage
`round(min(5(k+1), N) / N * 100)`, the percentages are non-decreasing across
events, and the final event reports exactly `(N, 100)`. -/
theorem claimC7_create_progress {ε : Type} (prior : List VectorStoreEntry)
    (text : Str) (f : EmbeddingFunction ε) (N : Nat)
    (hN : N = (chunkText text 1000 200).length) (hpos : 1 ≤ N)
    (hok : (create prior text f).error = none) :
    (create prior text f).progress.length = (N + 4) / 5 ∧
    (create prior text f).progress = (List.range ((N + 4) / 5)).map (fun k =>
      (min (5 * k + 5) N,
        jsRound (((min (5 * k + 5) N : Nat) : ℚ) / (N : ℚ) * 100))) ∧
    List.Chain' (fun p q : Nat × ℤ => p.2 ≤ q.2) (create prior text f).progress ∧
    (create prior text f).progress.getLast? = some (N, 100) := by
  subst hN
  have hform : (create prior text f).progress =
      (List.range (((chunkText text 1000 200).length + 4) / 5)).map (fun k =>
        (min (5 * k + 5) (chunkText text 1000 200).length,
          jsRound (((min (5 * k + 5) (chunkText text 1000 200).length : Nat) : ℚ) /
            ((chunkText text 1000 200).length : ℚ) * 100))) := by
    have h := createGo_ok_progress f (chunkText text 1000 200).length
      (chunkText text 1000 200).length (chunkText text 1000 200) 0 le_rfl hok
    rw [show (create prior text f).progress =
      (createGo f (chunkText text 1000 200).length (chunkText text 1000 200).length
        (chunkText text 1000 200) 0).progress from rfl, h]
    apply List.map_congr_left
    intro k _
    have harg : 0 + 5 * k + 5 = 5 * k + 5 := by omega
    rw [harg]
  have hq : (0 : ℚ) < ((chunkText text 1000 200).length : ℚ) := by exact_mod_cast hpos
  refine ⟨by rw [hform, List.length_map, List.length_range], hform, ?_, ?_⟩
  · rw [hform, List.chain'_map]
    match hm : ((chunkText text 1000 200).length + 4) / 5 with
    | 0 => simp
    | m + 1 =>
      rw [List.chain'_range_succ]
      intro j _
      apply jsRound_mono
      have hmin : ((min (5 * j + 5) (chunkText text 1000 200).length : Nat) : ℚ) ≤
          ((min (5 * (j + 1) + 5) (chunkText text 1000 200).length : Nat) : ℚ) := by
        have h0 : min (5 * j + 5) (chunkText text 1000 200).length ≤
            min (5 * (j + 1) + 5) (chunkText text 1000 200).length := by omega
        exact_mod_cast h0
      have hdiv := (div_le_div_right hq).mpr hmin
      nlinarith
  · obtain ⟨m, hm⟩ : ∃ m, ((chunkText text 1000 200).length + 4) / 5 = m + 1 :=
      ⟨((chunkText text 1000 200).length + 4) / 5 - 1, by omega⟩
    rw [hform, hm, List.range_succ, List.map_append, List.map_cons, List.map_nil,
      List.getLast?_concat]
    have hminN : min (5 * m + 5) (chunkText text 1000 200).length =
        (chunkText text 1000 200).length := by omega
    rw [hminN, div_self (ne_of_gt hq), one_mul, jsRound_hundred]

/-- Witness for C7: a successful `create` over one chunk. -/
theorem claimC7_create_progress_witness :
    1 = (chunkText text8 1000 200).length ∧ 1 ≤ 1 ∧
    (create ([] : List VectorStoreEntry) text8 constEmb).error = none ∧
    ((create [] text8 constEmb).progress.length = (1 + 4) / 5 ∧
      (create [] text8 constEmb).progress = (List.range ((1 + 4) / 5)).map (fun k =>
        (min (5 * k + 5) 1,
          jsRound (((min (5 * k + 5) 1 : Nat) : ℚ) / ((1 : Nat) : ℚ) * 100))) ∧
      List.Chain' (fun p q : Nat × ℤ => p.2 ≤ q.2) (create [] text8 constEmb).progress ∧
      (create [] text8 constEmb).progress.getLast? = some (1, 100)) :=
  ⟨by decide, by decide, by decide,
    claimC7_create_progress [] text8 constEmb 1 (by decide) (by decide) (by decide)⟩

/-- Claim C5: `search` on an empty store (the state of a freshly constructed
store, or of one whose `create` never completed successfully) returns the
empty sequence and performs zero calls to the supplied embedding function
(the call trace is empty), for every query, embedding function and `topK`. -/
theorem claimC5_search_empty_store {ε : Type} (query : Str)
    (f : EmbeddingFunction ε) (topK : Nat) :
    search ([] : List VectorStoreEntry) query f topK = (.ok [], []) := by
  rw [search]
  simp

/-- Claim C1 (amended): if any embedding call fails, `create` fails as a
whole, prior store contents are still discarded, and the final store consists
of exactly the chunks (with embeddings) of the batches that fully completed
before the failing batch.  In particular, the store is empty whenever the
failure hits the first batch (e.g. when there are at most 5 chunks) — but it
is not empty in general. -/
theorem claimC1_create_failure_keeps_completed_batches {ε : Type}
    (prior : List VectorStoreEntry) (text : Str) (f : EmbeddingFunction ε)
    (e : ε) (herr : (create prior text f).error = some e) :
    (∃ b, (create prior text f).store.map (fun en => en.chunk) =
        (chunkText text 1000 200).take (5 * b) ∧
      batchAll f (((chunkText text 1000 200).drop (5 * b)).take 5) = .error e) ∧
    create prior text f = create [] text f ∧
    ((chunkText text 1000 200).length ≤ 5 → (create prior text f).store = []) := by
  have hmain := createGo_error_store f (chunkText text 1000 200).length
    (chunkText text 1000 200).length (chunkText text 1000 200) 0 e le_rfl herr
  refine ⟨hmain, rfl, ?_⟩
  intro hle
  obtain ⟨b, hstore, hfail⟩ := hmain
  match b with
  | 0 =>
    simp only [Nat.mul_zero, List.take_zero] at hstore
    exact List.map_eq_nil.mp hstore
  | b + 1 =>
    exfalso
    have hdrop : (chunkText text 1000 200).drop (5 * (b + 1)) = [] := by
      apply List.drop_eq_nil_of_le
      omega
    rw [hdrop] at hfail
    simp [batchAll] at hfail

/-- An embedding stub that always rejects. -/
def failEmb : EmbeddingFunction Unit := fun _ => Except.error ()

/-- Witness for the amended C1: a first-batch failure over one chunk. -/
theorem claimC1_create_failure_witness :
    (create ([] : List VectorStoreEntry) text8 failEmb).error = some () ∧
    ((∃ b, (create [] text8 failEmb).store.map (fun en => en.chunk) =
        (chunkText text8 1000 200).take (5 * b) ∧
      batchAll failEmb (((chunkText text8 1000 200).drop (5 * b)).take 5) =
        .error ()) ∧
    create ([] : List VectorStoreEntry) text8 failEmb = create [] text8 failEmb ∧
    ((chunkText text8 1000 200).length ≤ 5 →
      (create [] text8 failEmb).store = [])) :=
  ⟨by decide, claimC1_create_failure_keeps_completed_batches [] text8 failEmb ()
    (by decide)⟩

/-- A 4201-character document: its 1000/200 chunking has 6 chunks
(windows at offsets 0, 800, …, 4000), so `create` runs two batches. -/
def bigText : Str := List.replicate 4201 'a'

/-- The reference windows of `bigText` under the fixed 1000/200 defaults. -/
def bigW (k : Nat) : Str := refWindow bigText 1000 200 k

/-- An embedding stub rejecting exactly on `bigText`'s final, 201-character
chunk: every chunk of the first batch resolves, the second batch rejects. -/
def failingEmb : EmbeddingFunction Unit :=
  fun c => if c.length = 201 then Except.error () else Except.ok [1]

theorem bigText_chunks :
    chunkText bigText 1000 200 =
      [bigW 0, bigW 1, bigW 2, bigW 3, bigW 4, bigW 5] := by
  rw [chunkText_eq_refChunks bigText 1000 200 (by norm_num), refChunks]
  have hlen : bigText.length = 4201 := by
    rw [bigText, List.length_replicate]
  rw [hlen]
  have hnum : numChunks 4201 1000 200 = 6 := by decide
  rw [if_neg (by norm_num), hnum]
  rfl

theorem bigW_length (k : Nat) : (bigW k).length = min 1000 (4201 - 800 * k) := by
  have hlen : bigText.length = 4201 := by
    rw [bigText, List.length_replicate]
  rw [bigW, refWindow, refWindowAt, jsSlice_length, hlen]
  omega

theorem failingEmb_firstBatch : ∀ k < 5, failingEmb (bigW k) = Except.ok [1] := by
  intro k hk
  unfold failingEmb
  rw [bigW_length k, if_neg (by omega)]

theorem failingEmb_lastChunk : failingEmb (bigW 5) = Except.error () := by
  unfold failingEmb
  rw [bigW_length 5, if_pos (by omega)]

theorem batchAll_nil {ε : Type} (f : EmbeddingFunction ε) :
    batchAll f [] = Except.ok [] := rfl

theorem batchAll_cons_ok {ε : Type} {f : EmbeddingFunction ε} {c : Str}
    {cs : List Str} {v : List ℚ} {vs : List (List ℚ)}
    (hc : f c = .ok v) (hcs : batchAll f cs = .ok vs) :
    batchAll f (c :: cs) = .ok (v :: vs) := by
  rw [batchAll, hc, hcs]

theorem batchAll_cons_error {ε : Type} {f : EmbeddingFunction ε} {c : Str}
    {cs : List Str} {e : ε} (hc : f c = .error e) :
    batchAll f (c :: cs) = .error e := by
  rw [batchAll, hc]

theorem bigText_batch1 :
    batchAll failingEmb [bigW 0, bigW 1, bigW 2, bigW 3, bigW 4] =
      Except.ok [[1], [1], [1], [1], [1]] :=
  batchAll_cons_ok (failingEmb_firstBatch 0 (by omega))
    (batchAll_cons_ok (failingEmb_firstBatch 1 (by omega))
      (batchAll_cons_ok (failingEmb_firstBatch 2 (by omega))
        (batchAll_cons_ok (failingEmb_firstBatch 3 (by omega))
          (batchAll_cons_ok (failingEmb_firstBatch 4 (by omega))
            (batchAll_nil failingEmb)))))

theorem bigText_batch2 :
    batchAll failingEmb [bigW 5] = Except.error () :=
  batchAll_cons_error failingEmb_lastChunk

/-- Counterexample to C1 as stated: on a 4201-character text the final chunk
is the only member of the second batch; when its embedding call fails,
`create` fails as a whole but the five first-batch entries remain in the
store, so the store is **not** left empty, and a subsequent `search` does
call the embedding function (its call trace is `[query]`, not `[]`). -/
theorem claimC1_counterexample :
    (create ([] : List VectorStoreEntry) bigText failingEmb).error = some () ∧
    (create ([] : List VectorStoreEntry) bigText failingEmb).store.length = 5 ∧
    (search (create ([] : List VectorStoreEntry) bigText failingEmb).store
      (['q'] : Str) constEmb 3).2 = [['q']] := by
  have hb1 : batchAll failingEmb
      ((bigW 0 :: [bigW 1, bigW 2, bigW 3, bigW 4, bigW 5]).take 5) =
      Except.ok [[1], [1], [1], [1], [1]] := bigText_batch1
  have hb2 : batchAll failingEmb ((bigW 5 :: ([] : List Str)).take 5) =
      Except.error () := bigText_batch2
  have h6 := @createGo_cons_ok Unit failingEmb 6 5 (bigW 0)
    [bigW 1, bigW 2, bigW 3, bigW 4, bigW 5] 0 [[1], [1], [1], [1], [1]] hb1
  have h5 := @createGo_cons_error Unit failingEmb 6 4 (bigW 5) [] 5 () hb2
  have hrun : create ([] : List VectorStoreEntry) bigText failingEmb =
      createGo failingEmb 6 (5 + 1)
        (bigW 0 :: [bigW 1, bigW 2, bigW 3, bigW 4, bigW 5]) 0 := by
    unfold create
    rw [bigText_chunks]
    rfl
  have hrest : createGo failingEmb 6 5
      ((bigW 0 :: [bigW 1, bigW 2, bigW 3, bigW 4, bigW 5]).drop 5) (0 + 5) =
      ⟨[], some (), []⟩ := h5
  rw [hrun, h6, hrest]
  refine ⟨rfl, ?_, ?_⟩
  · simp
  · rw [search, if_neg (by simp)]
    simp [constEmb]

/-! ### Cosine similarity -/

/-- The squared-norm accumulation of the similarity loop over a vector's own
indices. -/
def normSq (v : List ℚ) : ℚ :=
  ∑ i ∈ Finset.range v.length, v.getD i 0 * v.getD i 0

/-- Modelled from the spec: the mathematical dot product `dot(a, b)`. -/
def specDot (a b : List ℚ) : ℚ := (List.zipWith (· * ·) a b).sum

/-- Modelled from the spec: the Euclidean norm `‖v‖`. -/
noncomputable def specNorm (v : List ℚ) : ℝ :=
  Real.sqrt (((v.map (fun x => x * x)).sum : ℚ) : ℝ)

/-- `cosineSimilarity` written as an explicit conditional (definitional). -/
theorem cosineSimilarity_eq (a b : List ℚ) :
    cosineSimilarity a b =
      if (∑ i ∈ Finset.range a.length, a.getD i 0 * a.getD i 0) = 0 ∨
          (∑ i ∈ Finset.range a.length, b.getD i 0 * b.getD i 0) = 0 then 0
      else ((∑ i ∈ Finset.range a.length, a.getD i 0 * b.getD i 0 : ℚ) : ℝ) /
        (Real.sqrt ((∑ i ∈ Finset.range a.length, a.getD i 0 * a.getD i 0 : ℚ) : ℝ) *
          Real.sqrt ((∑ i ∈ Finset.range a.length, b.getD i 0 * b.getD i 0 : ℚ) : ℝ)) :=
  rfl

/-- The index loop over `range a.length` computes the mathematical dot
product when the two vectors have equal length. -/
theorem dotLoop_eq_specDot :
    ∀ (a b : List ℚ), a.length = b.length →
      (∑ i ∈ Finset.range a.length, a.getD i 0 * b.getD i 0) = specDot a b := by
  intro a
  induction a with
  | nil => intro b _; simp [specDot]
  | cons x xs ih =>
    intro b hlen
    match b with
    | [] => simp at hlen
    | y :: ys =>
      simp only [List.length_cons, Finset.sum_range_succ', List.getD_cons_succ,
        List.getD_cons_zero]
      rw [specDot, List.zipWith_cons_cons, List.sum_cons]
      have hlen' : xs.length = ys.length := by simpa using hlen
      rw [ih ys hlen', specDot]
      exact add_comm _ _

/-- The squared-norm loop computes the sum of squares. -/
theorem normSq_eq_sum_squares :
    ∀ v : List ℚ, normSq v = (v.map (fun x => x * x)).sum := by
  intro v
  induction v with
  | nil => simp [normSq]
  | cons x xs ih =>
    rw [normSq, List.length_cons, Finset.sum_range_succ']
    simp only [List.getD_cons_succ, List.getD_cons_zero]
    rw [List.map_cons, List.sum_cons, ← normSq, ih, add_comm]

theorem normSq_nonneg (v : List ℚ) : 0 ≤ normSq v := by
  rw [normSq_eq_sum_squares]
  apply List.sum_nonneg
  intro x hx
  obtain ⟨y, _, rfl⟩ := List.mem_map.mp hx
  exact mul_self_nonneg y

theorem specNorm_eq_zero_iff (v : List ℚ) : specNorm v = 0 ↔ normSq v = 0 := by
  rw [specNorm, ← normSq_eq_sum_squares,
    Real.sqrt_eq_zero (by exact_mod_cast normSq_nonneg v)]
  exact_mod_cast Iff.rfl

/-- Claim C4: for equal-length vectors, `cosineSimilarity` is total and
matches the spec's `dot(a,b) / (‖a‖·‖b‖)` whenever both norms are nonzero;
it is exactly `0` whenever either norm is zero — in particular against any
all-zero vector (no division by zero, and in this real-valued semantics no
NaN can arise and no failure path exists). -/
theorem claimC4_cosineSimilarity_safe (a b : List ℚ) :
    (a.length = b.length →
      ((specNorm a = 0 ∨ specNorm b = 0) → cosineSimilarity a b = 0) ∧
      (specNorm a ≠ 0 → specNorm b ≠ 0 →
        cosineSimilarity a b =
          ((specDot a b : ℚ) : ℝ) / (specNorm a * specNorm b))) ∧
    (∀ n, cosineSimilarity a (List.replicate n 0) = 0 ∧
      cosineSimilarity (List.replicate n 0) b = 0) := by
  have hrepl : ∀ (n i : Nat), (List.replicate n (0 : ℚ)).getD i 0 = 0 := by
    intro n i
    rw [List.getD_eq_getElem?_getD, List.getElem?_replicate]
    by_cases h : i < n <;> simp [h]
  constructor
  · intro hlen
    have hA : (∑ i ∈ Finset.range a.length, a.getD i 0 * a.getD i 0) = normSq a := rfl
    have hB : (∑ i ∈ Finset.range a.length, b.getD i 0 * b.getD i 0) = normSq b := by
      rw [normSq, hlen]
    constructor
    · intro hz
      rw [cosineSimilarity_eq, hA, hB, if_pos]
      rcases hz with hz | hz
      · exact Or.inl ((specNorm_eq_zero_iff a).mp hz)
      · exact Or.inr ((specNorm_eq_zero_iff b).mp hz)
    · intro hna hnb
      have hza : ¬ normSq a = 0 := fun h => hna ((specNorm_eq_zero_iff a).mpr h)
      have hzb : ¬ normSq b = 0 := fun h => hnb ((specNorm_eq_zero_iff b).mpr h)
      rw [cosineSimilarity_eq, hA, hB, if_neg (by tauto),
        dotLoop_eq_specDot a b hlen, specNorm, specNorm,
        ← normSq_eq_sum_squares, ← normSq_eq_sum_squares]
  · intro n
    constructor
    · rw [cosineSimilarity_eq, if_pos]
      refine Or.inr ?_
      apply Finset.sum_eq_zero
      intro i _
      rw [hrepl n i, mul_zero]
    · rw [cosineSimilarity_eq, if_pos]
      refine Or.inl ?_
      apply Finset.sum_eq_zero
      intro i _
      rw [hrepl n i, mul_zero]

/-- Witness for C4 at the concrete vectors `[3, 4]` and `[1, 2]`. -/
theorem claimC4_cosineSimilarity_safe_witness :
    ([3, 4] : List ℚ).length = ([1, 2] : List ℚ).length ∧
    (((specNorm [3, 4] = 0 ∨ specNorm [1, 2] = 0) →
        cosineSimilarity [3, 4] [1, 2] = 0) ∧
      (specNorm [3, 4] ≠ 0 → specNorm [1, 2] ≠ 0 →
        cosineSimilarity [3, 4] [1, 2] =
          ((specDot [3, 4] [1, 2] : ℚ) : ℝ) /
            (specNorm [3, 4] * specNorm [1, 2]))) ∧
    (∀ n, cosineSimilarity [3, 4] (List.replicate n 0) = 0 ∧
      cosineSimilarity (List.replicate n 0) [1, 2] = 0) :=
  ⟨by decide, (claimC4_cosineSimilarity_safe [3, 4] [1, 2]).1 (by decide),
    (claimC4_cosineSimilarity_safe [3, 4] [1, 2]).2⟩

/-- Claim C10: the similarity loop runs over the indices of its first
argument only, so a longer second vector can be truncated to the first's
length without changing the result; and since `search` passes the query
embedding first, truncating every stored embedding to the query's length
(when they are at least that long) changes neither the scores nor the search
output. -/
theorem claimC10_trailing_components_ignored :
    (∀ a b : List ℚ, a.length ≤ b.length →
      cosineSimilarity a b = cosineSimilarity a (b.take a.length)) ∧
    (∀ (ε : Type) (store : List VectorStoreEntry) (query : Str)
      (f : EmbeddingFunction ε) (topK : Nat) (qe : List ℚ),
      f query = .ok qe →
      (∀ en ∈ store, qe.length ≤ en.embedding.length) →
      search (store.map (fun en =>
          VectorStoreEntry.mk en.chunk (en.embedding.take qe.length)))
        query f topK = search store query f topK) := by
  have htrunc : ∀ a b : List ℚ, a.length ≤ b.length →
      cosineSimilarity a b = cosineSimilarity a (b.take a.length) := by
    intro a b hab
    have hgetD : ∀ i ∈ Finset.range a.length,
        (b.take a.length).getD i 0 = b.getD i 0 := by
      intro i hi
      rw [Finset.mem_range] at hi
      rw [List.getD_eq_getElem?_getD, List.getD_eq_getElem?_getD,
        List.getElem?_take_of_lt hi]
    rw [cosineSimilarity_eq, cosineSimilarity_eq]
    have hdot : (∑ i ∈ Finset.range a.length, a.getD i 0 * b.getD i 0) =
        ∑ i ∈ Finset.range a.length, a.getD i 0 * (b.take a.length).getD i 0 :=
      Finset.sum_congr rfl (fun i hi => by rw [hgetD i hi])
    have hnb : (∑ i ∈ Finset.range a.length, b.getD i 0 * b.getD i 0) =
        ∑ i ∈ Finset.range a.length,
          (b.take a.length).getD i 0 * (b.take a.length).getD i 0 :=
      Finset.sum_congr rfl (fun i hi => by rw [hgetD i hi])
    rw [hdot, hnb]
  refine ⟨htrunc, ?_⟩
  intro ε store query f topK qe hq hlen
  by_cases hs : store.length = 0
  · rw [search, search, if_pos (by rw [List.length_map]; exact hs), if_pos hs]
  · rw [search, search, if_neg (by rw [List.length_map]; exact hs), if_neg hs, hq]
    dsimp only
    rw [List.map_map]
    have hmaps : store.map ((fun entry =>
        (entry.chunk, cosineSimilarity qe entry.embedding)) ∘
          (fun en => VectorStoreEntry.mk en.chunk (en.embedding.take qe.length))) =
        store.map (fun entry => (entry.chunk, cosineSimilarity qe entry.embedding)) := by
      apply List.map_congr_left
      intro en hen
      simp only [Function.comp_apply]
      rw [← htrunc qe en.embedding (hlen en hen)]
    rw [hmaps]

/-- Witness for C10: a two-component stored embedding truncated against a
one-component query embedding. -/
theorem claimC10_trailing_components_ignored_witness :
    (([1] : List ℚ).length ≤ ([1, 5] : List ℚ).length ∧
      cosineSimilarity [1] [1, 5] =
        cosineSimilarity [1] (([1, 5] : List ℚ).take ([1] : List ℚ).length)) ∧
    (constEmb ['q'] = .ok [1] ∧
      (∀ en ∈ [VectorStoreEntry.mk ['a'] [1, 7]],
        ([1] : List ℚ).length ≤ en.embedding.length) ∧
      search ([VectorStoreEntry.mk ['a'] [1, 7]].map (fun en =>
          VectorStoreEntry.mk en.chunk (en.embedding.take ([1] : List ℚ).length)))
        ['q'] constEmb 3 = search [VectorStoreEntry.mk ['a'] [1, 7]] ['q'] constEmb 3) :=
  ⟨⟨by decide, claimC10_trailing_components_ignored.1 [1] [1, 5] (by decide)⟩,
    ⟨rfl, by decide,
      claimC10_trailing_components_ignored.2 Unit [VectorStoreEntry.mk ['a'] [1, 7]]
        ['q'] constEmb 3 [1] rfl (by decide)⟩⟩

/-! ### Search: ranking by descending similarity with a stable sort -/

theorem simLE_trans : ∀ a b c : Str × ℝ, simLE a b → simLE b c → simLE a c := by
  intro a b c hab hbc
  simp only [simLE, decide_eq_true_eq] at hab hbc ⊢
  exact le_trans hbc hab

theorem simLE_total : ∀ a b : Str × ℝ, simLE a b || simLE b a := by
  intro a b
  simp only [simLE, Bool.or_eq_true, decide_eq_true_eq]
  exact le_total b.2 a.2

/-- Stability of the ranking, phrased through filters: for every similarity
value, the ranked entries carrying that value appear in exactly their
original (insertion) order. -/
theorem mergeSort_filter_key (l : List (Str × ℝ)) (v : ℝ) :
    (l.mergeSort simLE).filter (fun x => decide (x.2 = v)) =
      l.filter (fun x => decide (x.2 = v)) := by
  have hpw : (l.filter (fun x => decide (x.2 = v))).Pairwise (fun x y => simLE x y) := by
    apply List.pairwise_of_forall_mem_list
    intro x hx y hy
    have hxv : x.2 = v := by simpa using (List.mem_filter.mp hx).2
    have hyv : y.2 = v := by simpa using (List.mem_filter.mp hy).2
    simp [simLE, hxv, hyv]
  have h1 : List.Sublist (l.filter (fun x => decide (x.2 = v))) (l.mergeSort simLE) :=
    List.sublist_mergeSort simLE_trans simLE_total hpw (List.filter_sublist l)
  have h2 : List.Sublist (l.filter (fun x => decide (x.2 = v)))
      ((l.mergeSort simLE).filter (fun x => decide (x.2 = v))) := by
    have hsub := h1.filter (fun x => decide (x.2 = v))
    have hff : (fun a : Str × ℝ => decide (a.2 = v) && decide (a.2 = v)) =
        (fun a : Str × ℝ => decide (a.2 = v)) := by
      funext a
      rw [Bool.and_self]
    rwa [List.filter_filter, hff] at hsub
  have hlen : (l.filter (fun x => decide (x.2 = v))).length =
      ((l.mergeSort simLE).filter (fun x => decide (x.2 = v))).length := by
    rw [← List.countP_eq_length_filter, ← List.countP_eq_length_filter]
    exact ((List.mergeSort_perm l simLE).countP_eq _).symm
  exact (h2.eq_of_length hlen).symm

/-- Claim C3: on a non-empty store with a resolving query embedding of
dimensionality consistent with the stored entries, and `topK ≥ 1`, `search`
returns the chunk texts (only) of the top-`topK` entries under a ranking
that is sorted by descending cosine similarity, is a permutation of the
entries' scored list (so `topK` beyond the store size just returns all of it
in ranked order), and keeps equal-similarity entries in insertion order
(stability, phrased through value filters).  It calls the embedding function
exactly once, on the query. -/
theorem claimC3_search_ranking {ε : Type} (store : List VectorStoreEntry)
    (query : Str) (f : EmbeddingFunction ε) (topK : Nat) (qe : List ℚ)
    (hne : store ≠ []) (hq : f query = .ok qe) (htopK : 1 ≤ topK)
    (hdim : ∀ en ∈ store, en.embedding.length = qe.length) :
    ∃ ranked : List (Str × ℝ),
      search store query f topK =
        (.ok ((ranked.take topK).map Prod.fst), [query]) ∧
      ranked.Pairwise (fun x y => y.2 ≤ x.2) ∧
      ranked.Perm (store.map (fun en => (en.chunk, cosineSimilarity qe en.embedding))) ∧
      ranked.length = store.length ∧
      (∀ v : ℝ, ranked.filter (fun x => decide (x.2 = v)) =
        (store.map (fun en => (en.chunk, cosineSimilarity qe en.embedding))).filter
          (fun x => decide (x.2 = v))) := by
  refine ⟨(store.map (fun en =>
    (en.chunk, cosineSimilarity qe en.embedding))).mergeSort simLE, ?_, ?_, ?_, ?_, ?_⟩
  · rw [search, if_neg (fun h => hne (List.length_eq_zero.mp h)), hq]
  · have h := List.sorted_mergeSort simLE_trans simLE_total
      (store.map (fun en => (en.chunk, cosineSimilarity qe en.embedding)))
    exact h.imp (by intro x y hxy; simpa [simLE] using hxy)
  · exact List.mergeSort_perm _ simLE
  · rw [List.length_mergeSort, List.length_map]
  · intro v
    exact mergeSort_filter_key _ v

/-- Witness for C3: a one-entry store and a matching-dimension query. -/
theorem claimC3_search_ranking_witness :
    [VectorStoreEntry.mk ['a'] [1]] ≠ ([] : List VectorStoreEntry) ∧
    constEmb ['q'] = .ok [1] ∧ 1 ≤ 1 ∧
    (∀ en ∈ [VectorStoreEntry.mk ['a'] [1]],
      en.embedding.length = ([1] : List ℚ).length) ∧
    (∃ ranked : List (Str × ℝ),
      search [VectorStoreEntry.mk ['a'] [1]] ['q'] constEmb 1 =
        (.ok ((ranked.take 1).map Prod.fst), [['q']]) ∧
      ranked.Pairwise (fun x y => y.2 ≤ x.2) ∧
      ranked.Perm ([VectorStoreEntry.mk ['a'] [1]].map
        (fun en => (en.chunk, cosineSimilarity [1] en.embedding))) ∧
      ranked.length = [VectorStoreEntry.mk ['a'] [1]].length ∧
      (∀ v : ℝ, ranked.filter (fun x => decide (x.2 = v)) =
        ([VectorStoreEntry.mk ['a'] [1]].map
          (fun en => (en.chunk, cosineSimilarity [1] en.embedding))).filter
            (fun x => decide (x.2 = v)))) :=
  ⟨by decide, rfl, by decide, by decide,
    claimC3_search_ranking [VectorStoreEntry.mk ['a'] [1]] ['q'] constEmb 1 [1]
      (by decide) rfl (by decide) (by decide)⟩

/-- Claim C9: on a non-empty store, `search` with `topK = 0` still invokes
the embedding function exactly once (on the query — the call trace is
`[query]` whether the call resolves or rejects), and when the query
embedding resolves, the result is the empty list: the zero-embedding-call
short-circuit applies only to the empty store, not to `topK = 0`. -/
theorem claimC9_topK_zero_still_embeds {ε : Type} (store : List VectorStoreEntry)
    (query : Str) (f : EmbeddingFunction ε) (hne : store ≠ []) :
    (search store query f 0).2 = [query] ∧
    (∀ qe, f query = .ok qe → (search store query f 0).1 = .ok []) := by
  constructor
  · rw [search, if_neg (fun h => hne (List.length_eq_zero.mp h))]
    cases hfq : f query <;> rfl
  · intro qe hq
    rw [search, if_neg (fun h => hne (List.length_eq_zero.mp h)), hq]
    dsimp only
    rw [List.take_zero, List.map_nil]

/-- Witness for C9: a one-entry store. -/
theorem claimC9_topK_zero_still_embeds_witness :
    [VectorStoreEntry.mk ['a'] [1]] ≠ ([] : List VectorStoreEntry) ∧
    (search [VectorStoreEntry.mk ['a'] [1]] ['q'] constEmb 0).2 = [['q']] ∧
    (search [VectorStoreEntry.mk ['a'] [1]] ['q'] constEmb 0).1 = .ok [] :=
  ⟨by decide,
    (claimC9_topK_zero_still_embeds [VectorStoreEntry.mk ['a'] [1]] ['q'] constEmb
      (by decide)).1,
    (claimC9_topK_zero_still_embeds [VectorStoreEntry.mk ['a'] [1]] ['q'] constEmb
      (by decide)).2 [1] rfl⟩

/-- Self-similarity of a vector with nonzero squared norm is exactly 1. -/
theorem cosineSimilarity_self (v : List ℚ) (hv : normSq v ≠ 0) :
    cosineSimilarity v v = 1 := by
  rw [cosineSimilarity_eq]
  have hA : (∑ i ∈ Finset.range v.length, v.getD i 0 * v.getD i 0) = normSq v := rfl
  rw [hA, if_neg (by simp [hv]),
    Real.mul_self_sqrt (by exact_mod_cast normSq_nonneg v)]
  exact div_self (by exact_mod_cast hv)

/-- Three entries sharing a single embedding: every entry ties at
similarity 1 against a query carrying that same embedding, and the stable
ranking then returns the *first* entry, not entry 2. -/
def store3 : List VectorStoreEntry :=
  [VectorStoreEntry.mk ['a'] [1], VectorStoreEntry.mk ['b'] [1],
   VectorStoreEntry.mk ['c'] [1]]

/-- Counterexample to C8 as stated: the query's embedding is identical to
`store.entries[2].embedding`, yet `search(query, …, topK = 1)` returns the
chunk of entry 0 (an earlier tie at similarity 1), not entry 2's chunk. -/
theorem claimC8_counterexample :
    constEmb ['q'] = Except.ok ((store3.get ⟨2, by decide⟩).embedding) ∧
    (store3.get ⟨2, by decide⟩).chunk = ['c'] ∧
    (search store3 ['q'] constEmb 1).1 = .ok [['a']] ∧
    (['a'] : Str) ≠ ['c'] := by
  refine ⟨rfl, by decide, ?_, by decide⟩
  rw [search, if_neg (by decide), show constEmb ['q'] = Except.ok [1] from rfl]
  dsimp only
  have hone : normSq [1] ≠ 0 := by
    simp [normSq, Finset.sum_range_one]
  have hcos : cosineSimilarity [1] [1] = 1 := cosineSimilarity_self [1] hone
  have hsims : store3.map
      (fun entry => (entry.chunk, cosineSimilarity [1] entry.embedding)) =
      [(['a'], (1 : ℝ)), (['b'], 1), (['c'], 1)] := by
    simp [store3, hcos]
  rw [hsims]
  have hsorted : List.Pairwise (fun x y : Str × ℝ => simLE x y = true)
      [(['a'], (1 : ℝ)), (['b'], 1), (['c'], 1)] := by
    simp [List.pairwise_cons, simLE]
  rw [List.mergeSort_of_sorted hsorted]
  rfl

/-- Claim C8 (amended): the ranking-determinism property holds once the tie
is genuinely broken: if the query embedding equals `store.entries[2]`'s
embedding, that embedding has nonzero squared norm, and every *other* entry
has similarity strictly below 1, then self-similarity is exactly 1 and
`search` with `topK = 1` returns exactly `[store.entries[2].chunk]`.  As
stated (over every populated store) the claim fails: an earlier entry tied
at similarity 1 — e.g. a duplicate embedding — wins the stable sort, and a
zero entry-2 embedding has self-similarity 0, not 1. -/
theorem claimC8_ranking_determinism_amended {ε : Type}
    (store : List VectorStoreEntry) (query : Str) (f : EmbeddingFunction ε)
    (h2 : 2 < store.length)
    (hq : f query = .ok (store.get ⟨2, h2⟩).embedding)
    (hnz : normSq (store.get ⟨2, h2⟩).embedding ≠ 0)
    (hlt : ∀ i (hi : i < store.length), i ≠ 2 →
      cosineSimilarity (store.get ⟨2, h2⟩).embedding
        (store.get ⟨i, hi⟩).embedding < 1) :
    cosineSimilarity (store.get ⟨2, h2⟩).embedding
      (store.get ⟨2, h2⟩).embedding = 1 ∧
    (search store query f 1).1 = .ok [(store.get ⟨2, h2⟩).chunk] := by
  have hself := cosineSimilarity_self (store.get ⟨2, h2⟩).embedding hnz
  refine ⟨hself, ?_⟩
  have hne0 : store.length ≠ 0 := by omega
  rw [search, if_neg hne0, hq]
  dsimp only
  set qe := (store.get ⟨2, h2⟩).embedding with hqe
  set sims := store.map (fun entry => (entry.chunk, cosineSimilarity qe entry.embedding))
    with hsims
  have hlenr : (sims.mergeSort simLE).length = store.length := by
    rw [List.length_mergeSort, hsims, List.length_map]
  obtain ⟨p, rest, hcons⟩ : ∃ p rest, sims.mergeSort simLE = p :: rest := by
    cases hr : sims.mergeSort simLE with
    | nil => rw [hr] at hlenr; simp at hlenr; omega
    | cons p rest => exact ⟨p, rest, rfl⟩
  rw [hcons]
  have htake : ((p :: rest).take 1).map Prod.fst = [p.1] := rfl
  rw [htake]
  -- the head bounds every ranked entry from above
  have hsorted := List.sorted_mergeSort simLE_trans simLE_total sims
  rw [hcons, List.pairwise_cons] at hsorted
  have hmax : ∀ x ∈ p :: rest, x.2 ≤ p.2 := by
    intro x hx
    rcases List.mem_cons.mp hx with hx | hx
    · rw [hx]
    · have := hsorted.1 x hx
      simpa [simLE] using this
  -- entry 2's scored pair is among the ranked entries
  have hmem2 : ((store.get ⟨2, h2⟩).chunk, cosineSimilarity qe qe) ∈
      sims.mergeSort simLE := by
    rw [List.mem_mergeSort, hsims]
    exact List.mem_map.mpr ⟨store.get ⟨2, h2⟩, List.get_mem store 2 h2, rfl⟩
  have hp_ge : (1 : ℝ) ≤ p.2 := by
    have := hmax _ (hcons ▸ hmem2)
    rwa [hself] at this
  -- the head itself is some scored entry
  have hpmem : p ∈ sims := by
    have hp : p ∈ sims.mergeSort simLE := by
      rw [hcons]
      exact List.mem_cons_self p rest
    exact List.mem_mergeSort.mp hp
  rw [hsims] at hpmem
  obtain ⟨en, hen, hpen⟩ := List.mem_map.mp hpmem
  obtain ⟨i, hi, hien⟩ := List.mem_iff_getElem.mp hen
  by_cases hi2 : i = 2
  · subst hi2
    have : en = store.get ⟨2, h2⟩ := by
      rw [← hien]
      rfl
    rw [← hpen, this]
  · exfalso
    have hlt' := hlt i hi hi2
    have : p.2 = cosineSimilarity qe en.embedding := by rw [← hpen]
    rw [this] at hp_ge
    have : store.get ⟨i, hi⟩ = en := hien
    rw [this] at hlt'
    linarith

theorem cos_orth : cosineSimilarity [1, 0] [0, 1] = 0 := by
  rw [cosineSimilarity_eq]
  norm_num [Finset.sum_range_succ, Finset.sum_range_one]

/-- A store whose first two entries are orthogonal to the third. -/
def store3w : List VectorStoreEntry :=
  [VectorStoreEntry.mk ['a'] [0, 1], VectorStoreEntry.mk ['b'] [0, 1],
   VectorStoreEntry.mk ['c'] [1, 0]]

/-- An embedding stub resolving every text to entry 2's embedding `[1, 0]`. -/
def orthEmb : EmbeddingFunction Unit := fun _ => Except.ok [1, 0]

/-- Witness for the amended C8: entry 2 is the unique entry with
similarity 1, so it is returned. -/
theorem claimC8_ranking_determinism_amended_witness :
    2 < store3w.length ∧
    orthEmb ['q'] = Except.ok ((store3w.get ⟨2, by decide⟩).embedding) ∧
    normSq ((store3w.get ⟨2, by decide⟩).embedding) ≠ 0 ∧
    (cosineSimilarity ((store3w.get ⟨2, by decide⟩).embedding)
        ((store3w.get ⟨2, by decide⟩).embedding) = 1 ∧
      (search store3w ['q'] orthEmb 1).1 =
        .ok [(store3w.get ⟨2, by decide⟩).chunk]) := by
  have hnz : normSq ((store3w.get ⟨2, by decide⟩).embedding) ≠ 0 := by
    simp [store3w, normSq, Finset.sum_range_succ, Finset.sum_range_one]
  have hlt : ∀ i (hi : i < store3w.length), i ≠ 2 →
      cosineSimilarity ((store3w.get ⟨2, by decide⟩).embedding)
        ((store3w.get ⟨i, hi⟩).embedding) < 1 := by
    intro i hi hne
    have hi3 : i < 3 := hi
    interval_cases i
    · show cosineSimilarity [1, 0] [0, 1] < 1
      rw [cos_orth]; norm_num
    · show cosineSimilarity [1, 0] [0, 1] < 1
      rw [cos_orth]; norm_num
    · exact absurd rfl hne
  exact ⟨by decide, rfl, hnz,
    claimC8_ranking_determinism_amended store3w ['q'] orthEmb (by decide) rfl hnz hlt⟩

/-- Witness for C2 at a concrete input (`8` characters, window size `3`,
overlap `1`). -/
theorem claimC2_chunkText_window_spec_witness :
    1 < 3 ∧
    (chunkText ['a', 'b', 'c', 'd', 'e', 'f', 'g', 'h'] 3 1 =
        refChunks ['a', 'b', 'c', 'd', 'e', 'f', 'g', 'h'] 3 1 ∧
      (['a', 'b', 'c', 'd', 'e', 'f', 'g', 'h'] ≠ ([] : Str) →
        (chunkText ['a', 'b', 'c', 'd', 'e', 'f', 'g', 'h'] 3 1).length =
          numChunks (['a', 'b', 'c', 'd', 'e', 'f', 'g', 'h'] : Str).length 3 1) ∧
      ((['a', 'b', 'c', 'd', 'e', 'f', 'g', 'h'] : Str) ≠ [] →
        (['a', 'b', 'c', 'd', 'e', 'f', 'g', 'h'] : Str).length ≤ 3 →
        chunkText ['a', 'b', 'c', 'd', 'e', 'f', 'g', 'h'] 3 1 =
          [['a', 'b', 'c', 'd', 'e', 'f', 'g', 'h']])) :=
  ⟨by decide, claimC2_chunkText_window_spec _ 3 1 (by decide)⟩

end VectorStore
